import Mathlib

/-!
The program `domains/main.go` of seethishat/hosts.

A shallow embedding of the domain checker and the proofs of its specified
properties.

Modelling conventions:

* A Go `string` is modelled as the list of the Unicode code points that
  `range` yields over it (`GoString := List Char`); the model covers the
  strings that are valid UTF-8.  The builtin `len` is the number of bytes of
  the UTF-8 encoding.
* `strings.ToLower` maps `unicode.ToLower` over the runes.  `unicode.ToLower`
  is the code of the Go library for the ASCII range; for a rune above
  `unicode.MaxASCII` it looks the rune up in the table `unicode.CaseRanges`,
  which is not part of the repository: the lookup is the parameter
  `caseRanges` of every definition that lower-cases.  A theorem that needs a
  fact of the table states it as a hypothesis on `caseRanges`: that it gives
  no `.`, that its lower cases are their own lower case, that it gives white
  space for white space only.
* A file is the list of the texts `scanner.Text()` yields, one a line; the
  fatal I/O paths (`log.Fatal`) are outside the model.
* Standard output is the list of the texts written by the successive
  `fmt.Printf` calls.
-/

/-- A Go string, as the sequence of its runes. -/
abbrev GoString := List Char

/-- The builtin `len` of a string: the number of bytes of its UTF-8 encoding. -/
def len (s : GoString) : Nat := (s.map Char.utf8Size).sum

namespace unicode

/-- The constant `unicode.MaxASCII`. -/
def MaxASCII : Nat := 0x7F

/-- The constant `unicode.MaxLatin1`. -/
def MaxLatin1 : Nat := 0xFF

/-- The function `unicode.IsSpace`: the Latin-1 switch, then the ranges of the
table `White_Space` above Latin-1. -/
def IsSpace (r : Char) : Bool :=
  if r.toNat ≤ MaxLatin1 then
    r = '\t' || r = '\n' || r.toNat = 0x0B || r.toNat = 0x0C || r = '\r' || r = ' '
      || r.toNat = 0x85 || r.toNat = 0xA0
  else
    r.toNat = 0x1680 || (0x2000 ≤ r.toNat && r.toNat ≤ 0x200A)
      || (0x2028 ≤ r.toNat && r.toNat ≤ 0x2029) || r.toNat = 0x202F
      || r.toNat = 0x205F || r.toNat = 0x3000

/-- The function `unicode.ToLower`; `caseRanges` is the lookup
`To(LowerCase, r)` in the table `unicode.CaseRanges`, used above ASCII only. -/
def ToLower (caseRanges : Char → Char) (r : Char) : Char :=
  if r.toNat ≤ MaxASCII then
    if 'A'.toNat ≤ r.toNat ∧ r.toNat ≤ 'Z'.toNat then
      Char.ofNat (r.toNat + ('a'.toNat - 'A'.toNat))
    else r
  else caseRanges r

end unicode

namespace strings

/-- The function `strings.TrimSpace`: all leading and trailing white space
(as `unicode.IsSpace`) removed. -/
def TrimSpace (s : GoString) : GoString :=
  ((s.dropWhile unicode.IsSpace).reverse.dropWhile unicode.IsSpace).reverse

/-- The function `strings.ToLower`: every rune mapped to its lower case. -/
def ToLower (caseRanges : Char → Char) (s : GoString) : GoString :=
  s.map (unicode.ToLower caseRanges)

/-- The function `strings.HasPrefix`. -/
def HasPrefix (s pre : GoString) : Bool := pre.isPrefixOf s

/-- The function `strings.HasSuffix`. -/
def HasSuffix (s suffix : GoString) : Bool := suffix.isSuffixOf s

/-- The function `strings.ContainsAny`: some code point of `chars` is within `s`. -/
def ContainsAny (s chars : GoString) : Bool := s.any fun r => chars.contains r

/-- The function `strings.Contains`: `substr` starts at some position of `s`. -/
def Contains : GoString → GoString → Bool
  | [], substr => substr.isPrefixOf []
  | c :: cs, substr => substr.isPrefixOf (c :: cs) || Contains cs substr

/-- The function `strings.Split` for a separator of one rune (the source
splits on `"."`): the substrings between the separators, `n + 1` of them for
`n` separators. -/
def Split (sep : Char) : GoString → List GoString
  | [] => [[]]
  | c :: cs =>
    if c = sep then [] :: Split sep cs
    else
      match Split sep cs with
      | [] => [[c]]
      | l :: ls => (c :: l) :: ls

end strings

namespace Hosts

/-- OkayChars is a string of ASCII chars that are acceptable as part of a
domain name. -/
def OkayChars : GoString := "abcdefghijklmnopqrstuvwxyz0123456789.-_".toList

/-- The loop of `validTLD` over the slice of TLDs: `true` at the first TLD that
is a suffix of `cleanDomain`, `false` when the slice is exhausted. -/
def validTLD.scan (cleanDomain : GoString) : List GoString → Bool
  | [] => false
  | tld :: rest =>
    if strings.HasSuffix cleanDomain tld then true else validTLD.scan cleanDomain rest

/-- The function `validTLD`. -/
def validTLD (caseRanges : Char → Char) (domain : GoString) (tlds : List GoString) : Bool :=
  let cleanDomain := strings.ToLower caseRanges (strings.TrimSpace domain)
  validTLD.scan cleanDomain tlds

/-- One iteration of the scanner loop of `loadTLDs`: the slice `tlds` after the
line `text`. -/
def loadTLDs.step (caseRanges : Char → Char) (tlds : List GoString) (text : GoString) :
    List GoString :=
  let tld := strings.ToLower caseRanges (strings.TrimSpace text)
  if !strings.HasPrefix tld "#".toList then tlds ++ [".".toList ++ tld] else tlds

/-- The function `loadTLDs`, on the lines of the file. -/
def loadTLDs (caseRanges : Char → Char) (lines : List GoString) : List GoString :=
  lines.foldl (loadTLDs.step caseRanges) []

/-- One iteration of the scanner loop of `loadDomains`. -/
def loadDomains.step (caseRanges : Char → Char) (domains : List GoString) (text : GoString) :
    List GoString :=
  let domain := strings.ToLower caseRanges (strings.TrimSpace text)
  domains ++ [domain]

/-- The function `loadDomains`, on the lines of the file. -/
def loadDomains (caseRanges : Char → Char) (lines : List GoString) : List GoString :=
  lines.foldl (loadDomains.step caseRanges) []

/-- The loop of `validDomain` over the runes: `false` at the first rune that
`OkayChars` does not contain, `true` when the loop falls through. -/
def validDomain.runes : GoString → Bool
  | [] => true
  | r :: rest => if !strings.Contains OkayChars [r] then false else validDomain.runes rest

/-- The loop of `validDomain` over the labels: `false` at the first label
longer than 63 or shorter than 1, `true` when the loop falls through. -/
def validDomain.labels : List GoString → Bool
  | [] => true
  | label :: rest => if len label > 63 ∨ len label < 1 then false else validDomain.labels rest

/-- The function `validDomain`. -/
def validDomain (caseRanges : Char → Char) (domain : GoString) : Bool :=
  let cleanDomain := strings.ToLower caseRanges (strings.TrimSpace domain)
  if len cleanDomain < 4 ∨ len cleanDomain > 253 then false
  else if strings.HasPrefix cleanDomain "-".toList || strings.HasPrefix cleanDomain "_".toList
      || strings.HasPrefix cleanDomain ".".toList then false
  else if strings.HasSuffix cleanDomain "-".toList || strings.HasSuffix cleanDomain "_".toList
      || strings.HasSuffix cleanDomain ".".toList then false
  else if !strings.ContainsAny cleanDomain ".".toList then false
  else if !validDomain.runes cleanDomain then false
  else if !validDomain.labels (strings.Split '.' cleanDomain) then false
  else true

/-- The verb `%t` of `fmt`. -/
def fmtBool (b : Bool) : GoString := if b then "true".toList else "false".toList

/-- The two `fmt.Printf` calls of one iteration of the loop of `main`, appended
to what standard output holds. -/
def main.step (caseRanges : Char → Char) (t : List GoString) (out : List GoString)
    (domain : GoString) : List GoString :=
  out ++
    [ "Valid TLD? ".toList ++ fmtBool (validTLD caseRanges domain t) ++ ", ".toList
        ++ domain ++ "\n".toList,
      "Valid Domain? ".toList ++ fmtBool (validDomain caseRanges domain) ++ ", ".toList
        ++ domain ++ "\n".toList ]

/-- The loop of `main` over the loaded domains `d` with the loaded TLDs `t`:
what the iterations write to standard output. -/
def main.report (caseRanges : Char → Char) (t d : List GoString) : List GoString :=
  d.foldl (main.step caseRanges t) []

/-- The function `main`, as what it writes to standard output: `helpFlag` is
the flag `-help` (the usage goes to standard error), `tlds` and `domains` are
the lines of the two files. -/
def main (caseRanges : Char → Char) (helpFlag : Bool) (tlds domains : List GoString) :
    List GoString :=
  if helpFlag then []
  else
    let t := loadTLDs caseRanges tlds
    let d := loadDomains caseRanges domains
    main.report caseRanges t d

/-- The normalised form `strings.ToLower(strings.TrimSpace(s))` that both
validators and both loaders compute first. -/
def clean (caseRanges : Char → Char) (s : GoString) : GoString :=
  strings.ToLower caseRanges (strings.TrimSpace s)

/-- A string of ASCII runes only: on such a string no definition consults
the table `unicode.CaseRanges`. -/
def isASCII (s : GoString) : Bool := s.all fun r => decide (r.toNat ≤ unicode.MaxASCII)

/-- The allowed set of the specification of the validator: lowercase
letters, digits, dot, hyphen, underscore. -/
def allowedChar (c : Char) : Bool :=
  decide (('a' ≤ c ∧ c ≤ 'z') ∨ ('0' ≤ c ∧ c ≤ '9') ∨ c = '.' ∨ c = '-' ∨ c = '_')

/-- The first or last character of the specification's rules 2 and 3:
one of hyphen, underscore, dot. -/
def edgeChar (c : Char) : Bool := decide (c = '-' ∨ c = '_' ∨ c = '.')

/-- The six rejection conditions of the specification of the validator
(section 4.4), in the order of the specification, each as a test of the
normalised string. -/
def rejections : List (GoString → Bool) :=
  [ fun n => decide (len n < 4 ∨ len n > 253),
    fun n => n.head?.any edgeChar,
    fun n => n.getLast?.any edgeChar,
    fun n => !n.contains '.',
    fun n => n.any fun c => !allowedChar c,
    fun n => (strings.Split '.' n).any fun label => decide (len label = 0 ∨ len label > 63) ]

end Hosts


namespace Hosts

/-- The substring of `s` after its last `sep`, all of `s` when it has none:
the rightmost label of a domain for `sep` the dot. -/
def afterLast (sep : Char) (s : GoString) : GoString := s.rtakeWhile fun c => c != sep

end Hosts

/-! ## Concrete inputs -/

namespace Hosts

/-- The domain `ab.cd` followed by 250 spaces: 255 bytes and characters. -/
def paddedDomain : GoString := "ab.cd".toList ++ List.replicate 250 ' '

/-- A string of 254 letters `a`. -/
def longDomain : GoString := List.replicate 254 'a'

/-- The domain `a.` + 64 times `x` + `.com` of the specification. -/
def label64Domain : GoString := "a.".toList ++ List.replicate 64 'x' ++ ".com".toList

/-- The domain `a.` + 63 times `x` + `.com`. -/
def label63Domain : GoString := "a.".toList ++ List.replicate 63 'x' ++ ".com".toList

end Hosts

/-! ## Runes, lengths and the library functions -/

namespace Hosts

theorem char_toNat_inj (c d : Char) : c.toNat = d.toNat ↔ c = d := by
  constructor
  · intro h
    exact Char.ext (UInt32.ext h)
  · rintro rfl; rfl

theorem mem_OkayChars (c : Char) : c ∈ OkayChars ↔
    (('a' ≤ c ∧ c ≤ 'z') ∨ ('0' ≤ c ∧ c ≤ '9') ∨ c = '.' ∨ c = '-' ∨ c = '_') := by
  have e1 : 'a' ≤ c ↔ 97 ≤ c.toNat := Iff.rfl
  have e2 : c ≤ 'z' ↔ c.toNat ≤ 122 := Iff.rfl
  have e3 : '0' ≤ c ↔ 48 ≤ c.toNat := Iff.rfl
  have e4 : c ≤ '9' ↔ c.toNat ≤ 57 := Iff.rfl
  have h : c ∈ OkayChars ↔ c.toNat ∈ OkayChars.map Char.toNat := by
    rw [List.mem_map]
    constructor
    · intro h; exact ⟨c, h, rfl⟩
    · rintro ⟨a, ha, e⟩
      rw [(char_toNat_inj a c).1 e] at ha; exact ha
  rw [h, e1, e2, e3, e4, ← char_toNat_inj c '.', ← char_toNat_inj c '-',
    ← char_toNat_inj c '_']
  have hl : OkayChars.map Char.toNat =
      [97, 98, 99, 100, 101, 102, 103, 104, 105, 106, 107, 108, 109, 110, 111, 112, 113,
        114, 115, 116, 117, 118, 119, 120, 121, 122, 48, 49, 50, 51, 52, 53, 54, 55, 56, 57,
        46, 45, 95] := by decide
  have e5 : '.'.toNat = 46 := rfl
  have e6 : '-'.toNat = 45 := rfl
  have e7 : '_'.toNat = 95 := rfl
  rw [hl, e5, e6, e7]
  generalize c.toNat = k
  simp only [List.mem_cons, List.mem_singleton, List.not_mem_nil, or_false]
  omega

theorem allowedChar_iff (c : Char) : allowedChar c = true ↔ c ∈ OkayChars := by
  rw [mem_OkayChars]; simp [allowedChar]

theorem utf8Size_of_mem_OkayChars {c : Char} (h : c ∈ OkayChars) : c.utf8Size = 1 := by
  have hc : c.toNat ≤ 127 := by
    have e1 : c ≤ 'z' ↔ c.toNat ≤ 122 := Iff.rfl
    have e4 : c ≤ '9' ↔ c.toNat ≤ 57 := Iff.rfl
    rcases (mem_OkayChars c).1 h with h | h | h | h | h
    · have := e1.1 h.2; omega
    · have := e4.1 h.2; omega
    · subst h; decide
    · subst h; decide
    · subst h; decide
  have hv : c.val ≤ UInt32.ofNatCore 127 (by decide) := by
    show c.val.toNat ≤ 127
    exact hc
  unfold Char.utf8Size
  exact if_pos hv

theorem len_nil : len [] = 0 := rfl

theorem len_cons (c : Char) (s : GoString) : len (c :: s) = c.utf8Size + len s := by
  simp [len]

theorem len_append (s t : GoString) : len (s ++ t) = len s + len t := by
  simp [len]

theorem length_le_len (s : GoString) : s.length ≤ len s := by
  induction s with
  | nil => simp [len]
  | cons c s ih =>
    have := Char.utf8Size_pos c
    rw [len_cons, List.length_cons]; omega

theorem len_eq_zero_iff (s : GoString) : len s = 0 ↔ s = [] := by
  cases s with
  | nil => simp [len]
  | cons c s =>
    have := Char.utf8Size_pos c
    rw [len_cons]
    constructor
    · intro h; omega
    · intro h; cases h

theorem len_eq_length_of_OkayChars (s : GoString) (h : ∀ c ∈ s, c ∈ OkayChars) :
    len s = s.length := by
  induction s with
  | nil => rfl
  | cons c s ih =>
    rw [len_cons, List.length_cons, utf8Size_of_mem_OkayChars (h c (List.mem_cons_self _ _)),
      ih fun x hx => h x (List.mem_cons_of_mem _ hx)]
    omega

end Hosts

/-! ## The library functions on the arguments the source gives them -/

namespace Hosts

theorem HasPrefix_singleton (s : GoString) (c : Char) :
    strings.HasPrefix s [c] = true ↔ s.head? = some c := by
  cases s with
  | nil => simp [strings.HasPrefix, List.isPrefixOf]
  | cons a s =>
    simp [strings.HasPrefix, List.isPrefixOf]
    exact eq_comm

theorem HasSuffix_iff (s t : GoString) : strings.HasSuffix s t = true ↔ t <:+ s := by
  simp [strings.HasSuffix]

theorem HasSuffix_singleton (s : GoString) (c : Char) :
    strings.HasSuffix s [c] = true ↔ s.getLast? = some c := by
  rw [HasSuffix_iff]
  constructor
  · rintro ⟨p, rfl⟩
    simp
  · intro h
    rcases List.eq_nil_or_concat s with rfl | ⟨p, a, rfl⟩
    · simp at h
    · simp at h
      subst h
      exact ⟨p, by simp⟩

theorem ContainsAny_singleton (s : GoString) (c : Char) :
    strings.ContainsAny s [c] = true ↔ c ∈ s := by
  simp [strings.ContainsAny]

theorem Contains_singleton (s : GoString) (r : Char) :
    strings.Contains s [r] = true ↔ r ∈ s := by
  induction s with
  | nil => simp [strings.Contains, List.isPrefixOf]
  | cons a s ih =>
    simp only [strings.Contains, Bool.or_eq_true, ih, List.mem_cons]
    simp [List.isPrefixOf]

theorem runes_iff (s : GoString) :
    validDomain.runes s = true ↔ ∀ c ∈ s, c ∈ OkayChars := by
  induction s with
  | nil => simp [validDomain.runes]
  | cons a s ih =>
    simp only [validDomain.runes, List.mem_cons, forall_eq_or_imp, ← ih]
    cases h : strings.Contains OkayChars [a]
    · have : ¬ a ∈ OkayChars := fun hm => by
        rw [(Contains_singleton _ _).2 hm] at h; cases h
      simp [this]
    · have : a ∈ OkayChars := (Contains_singleton _ _).1 h
      simp [this]

theorem labels_iff (ls : List GoString) :
    validDomain.labels ls = true ↔ ∀ l ∈ ls, 1 ≤ len l ∧ len l ≤ 63 := by
  induction ls with
  | nil => simp [validDomain.labels]
  | cons a ls ih =>
    simp only [validDomain.labels, List.mem_cons, forall_eq_or_imp, ← ih]
    by_cases h : len a > 63 ∨ len a < 1
    · rw [if_pos h]
      constructor
      · intro hf; cases hf
      · rintro ⟨h1, -⟩; omega
    · rw [if_neg h]
      constructor
      · intro hl; exact ⟨by omega, hl⟩
      · exact fun hl => hl.2

/-- The source's validator in terms of its normalised string: it returns
`true` exactly when none of its six `return false` statements is reached. -/
theorem validDomain_iff (caseRanges : Char → Char) (d : GoString) :
    validDomain caseRanges d = true ↔
      (4 ≤ len (clean caseRanges d) ∧ len (clean caseRanges d) ≤ 253) ∧
      (clean caseRanges d).head?.any edgeChar = false ∧
      (clean caseRanges d).getLast?.any edgeChar = false ∧
      '.' ∈ clean caseRanges d ∧
      (∀ c ∈ clean caseRanges d, c ∈ OkayChars) ∧
      (∀ l ∈ strings.Split '.' (clean caseRanges d), 1 ≤ len l ∧ len l ≤ 63) := by
  unfold validDomain
  show (if len (clean caseRanges d) < 4 ∨ len (clean caseRanges d) > 253 then false
    else if strings.HasPrefix (clean caseRanges d) "-".toList
        || strings.HasPrefix (clean caseRanges d) "_".toList
        || strings.HasPrefix (clean caseRanges d) ".".toList then false
    else if strings.HasSuffix (clean caseRanges d) "-".toList
        || strings.HasSuffix (clean caseRanges d) "_".toList
        || strings.HasSuffix (clean caseRanges d) ".".toList then false
    else if !strings.ContainsAny (clean caseRanges d) ".".toList then false
    else if !validDomain.runes (clean caseRanges d) then false
    else if !validDomain.labels (strings.Split '.' (clean caseRanges d)) then false
    else true) = true ↔ _
  generalize clean caseRanges d = n
  have hp : (strings.HasPrefix n "-".toList || strings.HasPrefix n "_".toList
      || strings.HasPrefix n ".".toList) = n.head?.any edgeChar := by
    rw [Bool.eq_iff_iff]
    simp only [Bool.or_eq_true, String.toList, HasPrefix_singleton]
    cases n with
    | nil => simp
    | cons a n =>
      simp only [List.head?_cons, Option.some.injEq, Option.any_some, edgeChar,
        decide_eq_true_eq, or_assoc]
  have hs : (strings.HasSuffix n "-".toList || strings.HasSuffix n "_".toList
      || strings.HasSuffix n ".".toList) = n.getLast?.any edgeChar := by
    rw [Bool.eq_iff_iff]
    simp only [Bool.or_eq_true, String.toList, HasSuffix_singleton]
    cases n.getLast? with
    | none => simp
    | some a =>
      simp only [Option.some.injEq, Option.any_some, edgeChar, decide_eq_true_eq, or_assoc]
  rw [hp, hs]
  have hc : strings.ContainsAny n ".".toList = true ↔ '.' ∈ n := ContainsAny_singleton n '.'
  have hr := runes_iff n
  have hl := labels_iff (strings.Split '.' n)
  by_cases h1 : len n < 4 ∨ len n > 253
  · rw [if_pos h1]
    constructor
    · intro h; cases h
    · rintro ⟨h, -⟩; omega
  rw [if_neg h1]
  cases h2 : n.head?.any edgeChar
  swap
  · simp
  cases h3 : n.getLast?.any edgeChar
  swap
  · simp
  cases h4 : strings.ContainsAny n ".".toList
  · have : ¬ '.' ∈ n := fun hm => by rw [hc.2 hm] at h4; cases h4
    simp [this]
  cases h5 : validDomain.runes n
  · have : ¬ ∀ c ∈ n, c ∈ OkayChars := fun hm => by rw [hr.2 hm] at h5; cases h5
    simp [this]
  cases h6 : validDomain.labels (strings.Split '.' n)
  · have : ¬ ∀ l ∈ strings.Split '.' n, 1 ≤ len l ∧ len l ≤ 63 := fun hm => by
      rw [hl.2 hm] at h6; cases h6
    simp [this]
  · simp only [Bool.false_eq_true, if_false, Bool.not_true, true_iff, true_and]
    exact ⟨by omega, hc.1 h4, hr.1 h5, hl.1 h6⟩

end Hosts

/-! ## The syntax validator -/

namespace Hosts

theorem mem_of_mem_Split (sep : Char) (s : GoString) :
    ∀ l ∈ strings.Split sep s, ∀ c ∈ l, c ∈ s := by
  induction s with
  | nil => simp [strings.Split]
  | cons a s ih =>
    intro l hl c hc
    unfold strings.Split at hl
    split at hl
    · rcases List.mem_cons.1 hl with rfl | hl
      · cases hc
      · exact List.mem_cons_of_mem _ (ih l hl c hc)
    · split at hl
      · rcases List.mem_singleton.1 hl with rfl
        rw [List.mem_singleton.1 hc]; exact List.mem_cons_self _ _
      · rename_i l0 ls hsp
        rcases List.mem_cons.1 hl with rfl | hl
        · rcases List.mem_cons.1 hc with rfl | hc
          · exact List.mem_cons_self _ _
          · exact List.mem_cons_of_mem _ (ih l0 (by rw [hsp]; exact List.mem_cons_self _ _) c hc)
        · exact List.mem_cons_of_mem _
            (ih l (by rw [hsp]; exact List.mem_cons_of_mem _ hl) c hc)

theorem edge_false_iff (o : Option Char) :
    o.any edgeChar = false ↔ ∀ c, o = some c → c ≠ '-' ∧ c ≠ '_' ∧ c ≠ '.' := by
  cases o with
  | none => simp
  | some a => simp [edgeChar]

/-- The validator is the negation of the disjunction of the six rejection
conditions of the specification. -/
theorem validDomain_eq_not_rejections (caseRanges : Char → Char) (d : GoString) :
    validDomain caseRanges d = !(rejections.any fun rej => rej (clean caseRanges d)) := by
  rw [Bool.eq_iff_iff, validDomain_iff]
  generalize clean caseRanges d = n
  simp only [rejections, List.any_cons, List.any_nil, Bool.or_false, Bool.not_eq_true',
    Bool.or_eq_false_iff, decide_eq_false_iff_not, Bool.not_eq_false',
    List.any_eq_false, not_or, not_lt, List.contains_eq_any_beq, List.any_eq_true,
    beq_iff_eq, exists_eq_right, gt_iff_lt]
  constructor
  · rintro ⟨⟨h1, h2⟩, h3, h4, h5, h6, h7⟩
    refine ⟨⟨h1, h2⟩, h3, h4, ⟨'.', h5, rfl⟩, ?_, ?_⟩
    · intro c hc
      have := (allowedChar_iff c).2 (h6 c hc)
      simp [this]
    · intro l hl
      have := h7 l hl
      simp only [decide_eq_true_eq]
      omega
  · rintro ⟨⟨h1, h2⟩, h3, h4, ⟨x, h5, hx⟩, h6, h7⟩
    refine ⟨⟨h1, h2⟩, h3, h4, hx ▸ h5, ?_, ?_⟩
    · intro c hc
      have := h6 c hc
      apply (allowedChar_iff c).1
      simpa using this
    · intro l hl
      have := h7 l hl
      simp only [decide_eq_true_eq] at this
      omega

theorem any_eq_of_perm {α : Type} (f : α → Bool) {p q : List α} (h : p.Perm q) :
    p.any f = q.any f := by
  rw [Bool.eq_iff_iff, List.any_eq_true, List.any_eq_true]
  exact ⟨fun ⟨x, hx, hf⟩ => ⟨x, h.mem_iff.1 hx, hf⟩, fun ⟨x, hx, hf⟩ => ⟨x, h.mem_iff.2 hx, hf⟩⟩

/-- C1. `validDomain d` is `true` exactly when, for `n` the trimmed and
lower-cased `d`: the length of `n` is between 4 and 253, its first and its last
character are none of `-`, `_`, `.`, it contains a `.`, all its characters are
in `a-z 0-9 . - _`, and every label of the split on `.` has a length between 1
and 63.  The lengths may be read as bytes (first part) or as characters
(second part).  The result is the negation of the disjunction of the six
rejection conditions of the specification, taken in any order (third part). -/
theorem C1_validDomain_characterisation (caseRanges : Char → Char) (d : GoString) :
    (validDomain caseRanges d = true ↔
      4 ≤ len (clean caseRanges d) ∧ len (clean caseRanges d) ≤ 253 ∧
      (∀ c, (clean caseRanges d).head? = some c → c ≠ '-' ∧ c ≠ '_' ∧ c ≠ '.') ∧
      (∀ c, (clean caseRanges d).getLast? = some c → c ≠ '-' ∧ c ≠ '_' ∧ c ≠ '.') ∧
      '.' ∈ clean caseRanges d ∧
      (∀ c ∈ clean caseRanges d,
        ('a' ≤ c ∧ c ≤ 'z') ∨ ('0' ≤ c ∧ c ≤ '9') ∨ c = '.' ∨ c = '-' ∨ c = '_') ∧
      (∀ l ∈ strings.Split '.' (clean caseRanges d), 1 ≤ len l ∧ len l ≤ 63)) ∧
    (validDomain caseRanges d = true ↔
      4 ≤ (clean caseRanges d).length ∧ (clean caseRanges d).length ≤ 253 ∧
      (∀ c, (clean caseRanges d).head? = some c → c ≠ '-' ∧ c ≠ '_' ∧ c ≠ '.') ∧
      (∀ c, (clean caseRanges d).getLast? = some c → c ≠ '-' ∧ c ≠ '_' ∧ c ≠ '.') ∧
      '.' ∈ clean caseRanges d ∧
      (∀ c ∈ clean caseRanges d,
        ('a' ≤ c ∧ c ≤ 'z') ∨ ('0' ≤ c ∧ c ≤ '9') ∨ c = '.' ∨ c = '-' ∨ c = '_') ∧
      (∀ l ∈ strings.Split '.' (clean caseRanges d), 1 ≤ l.length ∧ l.length ≤ 63)) ∧
    (∀ p : List (GoString → Bool), p.Perm rejections →
      validDomain caseRanges d = !(p.any fun rej => rej (clean caseRanges d))) := by
  refine ⟨?_, ?_, ?_⟩
  · rw [validDomain_iff, edge_false_iff, edge_false_iff]
    simp only [mem_OkayChars, and_assoc]
  · rw [validDomain_iff, edge_false_iff, edge_false_iff]
    simp only [← mem_OkayChars, and_assoc]
    constructor
    · rintro ⟨h1, h2, h3, h4, h5, h6, h7⟩
      rw [len_eq_length_of_OkayChars _ h6] at h1 h2
      refine ⟨h1, h2, h3, h4, h5, h6, fun l hl => ?_⟩
      rw [← len_eq_length_of_OkayChars l fun c hc => h6 c (mem_of_mem_Split _ _ l hl c hc)]
      exact h7 l hl
    · rintro ⟨h1, h2, h3, h4, h5, h6, h7⟩
      rw [← len_eq_length_of_OkayChars _ h6] at h1 h2
      refine ⟨h1, h2, h3, h4, h5, h6, fun l hl => ?_⟩
      rw [len_eq_length_of_OkayChars l fun c hc => h6 c (mem_of_mem_Split _ _ l hl c hc)]
      exact h7 l hl
  · intro p hp
    rw [any_eq_of_perm _ hp]
    exact validDomain_eq_not_rejections caseRanges d

end Hosts

/-! ## Normalisation and the ASCII range -/

namespace Hosts

theorem mem_of_mem_TrimSpace {s : GoString} {r : Char} (h : r ∈ strings.TrimSpace s) :
    r ∈ s := by
  unfold strings.TrimSpace at h
  rw [List.mem_reverse] at h
  have h1 := (List.dropWhile_sublist unicode.IsSpace).subset h
  rw [List.mem_reverse] at h1
  exact (List.dropWhile_sublist unicode.IsSpace).subset h1

theorem ToLower_rune_congr (cr cr' : Char → Char) {r : Char} (h : r.toNat ≤ unicode.MaxASCII) :
    unicode.ToLower cr r = unicode.ToLower cr' r := by
  unfold unicode.ToLower
  rw [if_pos h, if_pos h]

/-- On an ASCII string the normalised form does not depend on the table
`unicode.CaseRanges`. -/
theorem clean_congr (cr cr' : Char → Char) (s : GoString) (h : isASCII s = true) :
    clean cr s = clean cr' s := by
  unfold clean strings.ToLower
  apply List.map_congr_left
  intro r hr
  apply ToLower_rune_congr
  have := List.all_eq_true.1 h r (mem_of_mem_TrimSpace hr)
  simpa using this

theorem validTLD_eq_scan (cr : Char → Char) (d : GoString) (tlds : List GoString) :
    validTLD cr d tlds = validTLD.scan (clean cr d) tlds := rfl

theorem validTLD_congr (cr cr' : Char → Char) (d : GoString) (h : isASCII d = true)
    (tlds : List GoString) : validTLD cr d tlds = validTLD cr' d tlds := by
  rw [validTLD_eq_scan, validTLD_eq_scan, clean_congr cr cr' _ h]

theorem validDomain_congr (cr cr' : Char → Char) (d : GoString) (h : isASCII d = true) :
    validDomain cr d = validDomain cr' d := by
  rw [Bool.eq_iff_iff, validDomain_iff, validDomain_iff, clean_congr cr cr' _ h]

end Hosts

/-! ## The TLD matcher and the loaders -/

namespace Hosts

theorem scan_iff (n : GoString) (tlds : List GoString) :
    validTLD.scan n tlds = true ↔ ∃ t ∈ tlds, t <:+ n := by
  induction tlds with
  | nil => simp [validTLD.scan]
  | cons t ts ih =>
    simp only [validTLD.scan, List.mem_cons, exists_eq_or_imp, ← HasSuffix_iff n t]
    cases strings.HasSuffix n t
    · simpa using ih
    · simp

/-- C2. `validTLD d tlds` is `true` exactly when some entry of `tlds` is a
suffix of the trimmed and lower-cased `d`; on the empty list it is `false`. -/
theorem C2_validTLD_iff_suffix (caseRanges : Char → Char) (d : GoString)
    (tlds : List GoString) :
    (validTLD caseRanges d tlds = true ↔ ∃ t ∈ tlds, t <:+ clean caseRanges d) ∧
    validTLD caseRanges d [] = false :=
  ⟨scan_iff _ _, rfl⟩

/-- The test of the loader for a line that is no comment: its normalised form
does not start with `#`. -/
theorem not_HasPrefix_hash (n : GoString) :
    (!strings.HasPrefix n "#".toList) = decide (n.head? ≠ some '#') := by
  rw [Bool.eq_iff_iff]
  have := HasPrefix_singleton n '#'
  simp only [String.toList, Bool.not_eq_true', decide_eq_true_eq, ne_eq, ← this]
  cases strings.HasPrefix n ['#'] <;> simp

theorem foldl_loadTLDs_step (cr : Char → Char) (lines : List GoString) :
    ∀ acc : List GoString, lines.foldl (loadTLDs.step cr) acc =
      acc ++ (lines.filter fun L => decide ((clean cr L).head? ≠ some '#')).map
        fun L => '.' :: clean cr L := by
  induction lines with
  | nil => simp
  | cons L ls ih =>
    intro acc
    rw [List.foldl_cons, ih]
    have hstep : loadTLDs.step cr acc L =
        if decide ((clean cr L).head? ≠ some '#') = true then acc ++ ['.' :: clean cr L]
        else acc := by
      show (if (!strings.HasPrefix (clean cr L) "#".toList) = true then
        acc ++ [".".toList ++ clean cr L] else acc) = _
      rw [not_HasPrefix_hash]
      rfl
    rw [hstep, List.filter_cons]
    by_cases h : decide ((clean cr L).head? ≠ some '#') = true
    · rw [if_pos h, if_pos h]; simp
    · rw [if_neg h, if_neg h]

theorem loadTLDs_eq (cr : Char → Char) (lines : List GoString) :
    loadTLDs cr lines =
      (lines.filter fun L => decide ((clean cr L).head? ≠ some '#')).map
        fun L => '.' :: clean cr L := by
  unfold loadTLDs
  rw [foldl_loadTLDs_step]; rfl

theorem loadTLDs_congr (cr cr' : Char → Char) (lines : List GoString)
    (h : lines.all isASCII = true) : loadTLDs cr lines = loadTLDs cr' lines := by
  rw [loadTLDs_eq, loadTLDs_eq]
  induction lines with
  | nil => rfl
  | cons L ls ih =>
    rw [List.all_cons, Bool.and_eq_true] at h
    rw [List.filter_cons, List.filter_cons, clean_congr cr cr' L h.1]
    split
    · rw [List.map_cons, List.map_cons, ih h.2, clean_congr cr cr' L h.1]
    · exact ih h.2

/-- C3. `loadTLDs` yields, in file order, `"." + lowercase(trim(L))` for
each line `L` whose normalised form does not start with `#`, and nothing for
the other lines; its length is the number of the non-comment lines.  On the
lines `# Version 1`, `ORG`, ` Com `, ` #x`, `com` it yields `.org`, `.com`,
`.com`: file order, no deduplication. -/
theorem C3_loadTLDs_entries (caseRanges : Char → Char) (lines : List GoString) :
    loadTLDs caseRanges lines =
      (lines.filter fun L => decide ((clean caseRanges L).head? ≠ some '#')).map
        (fun L => ".".toList ++ clean caseRanges L) ∧
    (loadTLDs caseRanges lines).length =
      lines.countP (fun L => decide ((clean caseRanges L).head? ≠ some '#')) ∧
    loadTLDs caseRanges
        ["# Version 1".toList, "ORG".toList, " Com ".toList, " #x".toList, "com".toList] =
      [".org".toList, ".com".toList, ".com".toList] := by
  have h := loadTLDs_eq caseRanges lines
  refine ⟨h, ?_, ?_⟩
  · rw [h, List.length_map, List.countP_eq_length_filter]
  · rw [loadTLDs_congr caseRanges (fun r => r) _ (by decide)]
    decide!

theorem foldl_loadDomains_step (cr : Char → Char) (lines : List GoString) :
    ∀ acc : List GoString, lines.foldl (loadDomains.step cr) acc =
      acc ++ lines.map (clean cr) := by
  induction lines with
  | nil => simp
  | cons L ls ih =>
    intro acc
    rw [List.foldl_cons, ih]
    show (acc ++ [clean cr L]) ++ _ = _
    simp

theorem loadDomains_eq (cr : Char → Char) (lines : List GoString) :
    loadDomains cr lines = lines.map (clean cr) := by
  unfold loadDomains
  rw [foldl_loadDomains_step]; rfl

/-- C4. `loadDomains` yields, in file order, `lowercase(trim(L))` for every
line `L`, blank lines and lines starting with `#` included; its length is the
number of lines. -/
theorem C4_loadDomains_entries (caseRanges : Char → Char) (lines : List GoString) :
    loadDomains caseRanges lines = lines.map (clean caseRanges) ∧
    (loadDomains caseRanges lines).length = lines.length ∧
    loadDomains caseRanges ["".toList, "# c".toList] = ["".toList, "# c".toList] := by
  refine ⟨loadDomains_eq _ _, ?_, ?_⟩
  · rw [loadDomains_eq, List.length_map]
  · rw [loadDomains_eq]
    simp only [List.map_cons, List.map_nil]
    rw [clean_congr caseRanges (fun r => r) "".toList (by decide),
      clean_congr caseRanges (fun r => r) "# c".toList (by decide)]
    decide!

end Hosts

namespace Hosts

theorem loadDomains_congr (cr cr' : Char → Char) (lines : List GoString)
    (h : lines.all isASCII = true) : loadDomains cr lines = loadDomains cr' lines := by
  rw [loadDomains_eq, loadDomains_eq]
  apply List.map_congr_left
  intro L hL
  exact clean_congr cr cr' L (List.all_eq_true.1 h L hL)

end Hosts

/-! ## The report -/

namespace Hosts

theorem foldl_main_step (cr : Char → Char) (t ds : List GoString) :
    ∀ acc : List GoString, ds.foldl (main.step cr t) acc =
      acc ++ ds.foldl (main.step cr t) [] := by
  induction ds with
  | nil => simp
  | cons d ds ih =>
    intro acc
    rw [List.foldl_cons, List.foldl_cons, ih, ih (main.step cr t [] d)]
    show (acc ++ _) ++ _ = acc ++ (([] ++ _) ++ _)
    simp

theorem report_nil (cr : Char → Char) (t : List GoString) : main.report cr t [] = [] := rfl

theorem report_cons (cr : Char → Char) (t : List GoString) (d : GoString)
    (ds : List GoString) :
    main.report cr t (d :: ds) =
      ("Valid TLD? ".toList ++ fmtBool (validTLD cr d t) ++ ", ".toList ++ d ++ "\n".toList) ::
      ("Valid Domain? ".toList ++ fmtBool (validDomain cr d) ++ ", ".toList ++ d
        ++ "\n".toList) :: main.report cr t ds := by
  unfold main.report
  rw [List.foldl_cons, foldl_main_step]
  rfl

theorem report_length (cr : Char → Char) (t ds : List GoString) :
    (main.report cr t ds).length = 2 * ds.length := by
  induction ds with
  | nil => rfl
  | cons d ds ih => rw [report_cons, List.length_cons, List.length_cons, ih, List.length_cons]; omega

theorem report_getElem (cr : Char → Char) (t ds : List GoString) :
    ∀ (i : Nat) (d : GoString), ds[i]? = some d →
      (main.report cr t ds)[2 * i]? = some ("Valid TLD? ".toList
        ++ fmtBool (validTLD cr d t) ++ ", ".toList ++ d ++ "\n".toList) ∧
      (main.report cr t ds)[2 * i + 1]? = some ("Valid Domain? ".toList
        ++ fmtBool (validDomain cr d) ++ ", ".toList ++ d ++ "\n".toList) := by
  induction ds with
  | nil => intro i d h; simp at h
  | cons x ds ih =>
    intro i d h
    rw [report_cons]
    cases i with
    | zero =>
      simp only [List.getElem?_cons_zero, Option.some.injEq] at h
      subst h
      exact ⟨List.getElem?_cons_zero, by
        rw [show 2 * 0 + 1 = 0 + 1 from rfl, List.getElem?_cons_succ]
        exact List.getElem?_cons_zero⟩
    | succ i =>
      rw [List.getElem?_cons_succ] at h
      have e1 : 2 * (i + 1) = 2 * i + 1 + 1 := by omega
      rw [e1, List.getElem?_cons_succ, List.getElem?_cons_succ, List.getElem?_cons_succ,
        List.getElem?_cons_succ]
      exact ih i d h

/-- C5. For every TLD set `t` and all candidate domains `ds`, the report has
`2 * ds.length` lines, and for the `i`-th domain `d` (from 0) line `2 * i` is
`Valid TLD? <validTLD d t>, <d>` and line `2 * i + 1` is
`Valid Domain? <validDomain d>, <d>`, each booleans printed as `true` or
`false`; `main` reports on what the two loaders return; and the TLD line `COM`
with the domain line `Example.COM` gives `Valid TLD? true, example.com` and
`Valid Domain? true, example.com`. -/
theorem C5_report_two_lines_per_domain (caseRanges : Char → Char) (t ds : List GoString) :
    (main.report caseRanges t ds).length = 2 * ds.length ∧
    (∀ (i : Nat) (d : GoString), ds[i]? = some d →
      (main.report caseRanges t ds)[2 * i]? = some ("Valid TLD? ".toList
        ++ fmtBool (validTLD caseRanges d t) ++ ", ".toList ++ d ++ "\n".toList) ∧
      (main.report caseRanges t ds)[2 * i + 1]? = some ("Valid Domain? ".toList
        ++ fmtBool (validDomain caseRanges d) ++ ", ".toList ++ d ++ "\n".toList)) ∧
    (fmtBool true = "true".toList ∧ fmtBool false = "false".toList) ∧
    (∀ tldLines domainLines : List GoString,
      main caseRanges false tldLines domainLines =
        main.report caseRanges (loadTLDs caseRanges tldLines)
          (loadDomains caseRanges domainLines)) ∧
    main caseRanges false ["COM".toList] ["Example.COM".toList] =
      ["Valid TLD? true, example.com\n".toList, "Valid Domain? true, example.com\n".toList] := by
  refine ⟨report_length _ _ _, report_getElem _ _ _, ⟨rfl, rfl⟩, fun _ _ => rfl, ?_⟩
  show main.report caseRanges (loadTLDs caseRanges ["COM".toList])
    (loadDomains caseRanges ["Example.COM".toList]) = _
  rw [loadTLDs_congr caseRanges (fun r => r) _ (by decide),
    loadDomains_congr caseRanges (fun r => r) _ (by decide)]
  have h1 : loadTLDs (fun r => r) ["COM".toList] = [".com".toList] := by decide!
  have h2 : loadDomains (fun r => r) ["Example.COM".toList] = ["example.com".toList] := by
    decide!
  rw [h1, h2, report_cons, report_nil,
    validTLD_congr caseRanges (fun r => r) "example.com".toList (by decide),
    validDomain_congr caseRanges (fun r => r) "example.com".toList (by decide)]
  decide!

end Hosts

/-! ## Trimming -/

namespace Hosts

theorem TrimSpace_eq_rdropWhile (s : GoString) :
    strings.TrimSpace s = (s.dropWhile unicode.IsSpace).rdropWhile unicode.IsSpace := rfl

theorem length_TrimSpace_le (s : GoString) : (strings.TrimSpace s).length ≤ s.length := by
  rw [TrimSpace_eq_rdropWhile]
  exact Nat.le_trans (List.rdropWhile_prefix _ _).length_le
    (List.dropWhile_suffix unicode.IsSpace).length_le

theorem length_clean (cr : Char → Char) (s : GoString) :
    (clean cr s).length = (strings.TrimSpace s).length := by
  simp [clean, strings.ToLower]

/-- A first character that is no white space is the first character of the
trimmed string. -/
theorem head?_TrimSpace (s : GoString) (c : Char) (h : s.head? = some c)
    (hc : unicode.IsSpace c = false) : (strings.TrimSpace s).head? = some c := by
  cases s with
  | nil => simp at h
  | cons a s =>
    simp only [List.head?_cons, Option.some.injEq] at h
    subst h
    rw [TrimSpace_eq_rdropWhile, List.dropWhile_cons_of_neg (by simp [hc])]
    have hne : (a :: s).rdropWhile unicode.IsSpace ≠ [] := by
      intro he
      have := List.rdropWhile_eq_nil_iff.1 he a (List.mem_cons_self _ _)
      rw [hc] at this; cases this
    obtain ⟨t, ht⟩ := List.rdropWhile_prefix unicode.IsSpace (a :: s)
    cases hr : (a :: s).rdropWhile unicode.IsSpace with
    | nil => exact absurd hr hne
    | cons b r =>
      rw [hr] at ht
      simp only [List.cons_append, List.cons.injEq] at ht
      rw [List.head?_cons, ht.1]

/-- A last character that is no white space is the last character of the
trimmed string. -/
theorem getLast?_TrimSpace (s : GoString) (c : Char) (h : s.getLast? = some c)
    (hc : unicode.IsSpace c = false) : (strings.TrimSpace s).getLast? = some c := by
  rcases List.eq_nil_or_concat s with rfl | ⟨p, a, rfl⟩
  · simp at h
  · have h' : some a = some c := by simpa using h
    cases h'
    rw [TrimSpace_eq_rdropWhile]
    have hsuf : (p.concat c).dropWhile unicode.IsSpace <:+ p.concat c :=
      List.dropWhile_suffix unicode.IsSpace
    obtain ⟨t, ht⟩ := hsuf
    have hne : (p.concat c).dropWhile unicode.IsSpace ≠ [] := by
      intro he
      have := List.dropWhile_eq_nil_iff.1 he c (by simp)
      rw [hc] at this; cases this
    rcases List.eq_nil_or_concat ((p.concat c).dropWhile unicode.IsSpace) with he | ⟨q, b, hq⟩
    · exact absurd he hne
    · rw [hq] at ht ⊢
      have hb : b = c := by
        have := congrArg List.getLast? ht
        simpa using this
      subst hb
      rw [List.concat_eq_append, List.rdropWhile_concat_neg _ _ _ (by simp [hc])]
      simp

theorem ToLower_edgeChar (cr : Char → Char) (c : Char) (h : edgeChar c = true) :
    unicode.ToLower cr c = c ∧ unicode.IsSpace c = false := by
  simp only [edgeChar, decide_eq_true_eq] at h
  rcases h with rfl | rfl | rfl
  · exact ⟨by unfold unicode.ToLower; rw [if_pos (by decide), if_neg (by decide)], by decide⟩
  · exact ⟨by unfold unicode.ToLower; rw [if_pos (by decide), if_neg (by decide)], by decide⟩
  · exact ⟨by unfold unicode.ToLower; rw [if_pos (by decide), if_neg (by decide)], by decide⟩

end Hosts

/-! ## The length rules -/

namespace Hosts

/-- C6, as the code has it. When the trimmed and lower-cased `d` is longer
than 253, in bytes or in characters, `validDomain d` is `false`. -/
theorem C6_normalised_longer_than_253 (caseRanges : Char → Char) (d : GoString)
    (h : 253 < len (clean caseRanges d) ∨ 253 < (clean caseRanges d).length) :
    validDomain caseRanges d = false := by
  cases hv : validDomain caseRanges d
  · rfl
  · have h1 := ((validDomain_iff caseRanges d).1 hv).1
    have h2 := length_le_len (clean caseRanges d)
    omega

/-- C6, amended, at a string of 254 letters. -/
theorem C6_normalised_longer_than_253_witness :
    (253 < len (clean (fun r => r) longDomain) ∨ 253 < (clean (fun r => r) longDomain).length) ∧
    validDomain (fun r => r) longDomain = false :=
  ⟨Or.inl (by decide!), C6_normalised_longer_than_253 (fun r => r) longDomain
    (Or.inl (by decide!))⟩

/-- C6 as stated fails: `ab.cd` followed by 250 spaces is longer than 253
(255 bytes, 255 characters) and `validDomain` accepts it, because the length
is tested after the trimming. -/
theorem C6_padded_domain_accepted :
    253 < len paddedDomain ∧ 253 < paddedDomain.length ∧
    ∀ caseRanges : Char → Char, validDomain caseRanges paddedDomain = true := by
  refine ⟨by decide!, by decide!, fun cr => ?_⟩
  rw [validDomain_congr cr (fun r => r) paddedDomain (by decide!)]
  decide!

/-- C7. A string `d` shorter than 4, in bytes or in characters, is rejected. -/
theorem C7_shorter_than_4 (caseRanges : Char → Char) (d : GoString)
    (h : len d < 4 ∨ d.length < 4) : validDomain caseRanges d = false := by
  cases hv : validDomain caseRanges d
  · rfl
  · obtain ⟨⟨h1, -⟩, -, -, -, h5, -⟩ := (validDomain_iff caseRanges d).1 hv
    rw [len_eq_length_of_OkayChars _ h5, length_clean] at h1
    have h2 := length_TrimSpace_le d
    have h3 := length_le_len d
    omega

/-- C7 at the empty string and at `a.b`. -/
theorem C7_shorter_than_4_witness :
    (len "".toList < 4 ∧ validDomain (fun r => r) "".toList = false) ∧
    (len "a.b".toList < 4 ∧ validDomain (fun r => r) "a.b".toList = false) :=
  ⟨⟨by decide, C7_shorter_than_4 (fun r => r) "".toList (Or.inl (by decide))⟩,
    ⟨by decide, C7_shorter_than_4 (fun r => r) "a.b".toList (Or.inl (by decide))⟩⟩

end Hosts

/-! ## The degenerate suffix -/

namespace Hosts

theorem clean_blank (cr : Char → Char) (L : GoString) (h : strings.TrimSpace L = []) :
    clean cr L = [] := by
  unfold clean
  rw [h]; rfl

theorem validTLD_dot_iff (cr : Char → Char) (d : GoString) :
    validTLD cr d [".".toList] = true ↔ (clean cr d).getLast? = some '.' := by
  rw [validTLD_eq_scan, scan_iff, ← HasSuffix_singleton, HasSuffix_iff]
  simp

/-- C8, as the code has it. A line `L` of the TLD file that is blank or
white space only yields the suffix `.` (alone, `loadTLDs [L] = ["."]`), and
then `validTLD d (loadTLDs lines)` is `true` for every `d` whose trimmed and
lower-cased form ends with `.`; against the suffix `.` alone, `validTLD d` is
`true` for these `d` only. -/
theorem C8_blank_line_suffix (caseRanges : Char → Char) (lines : List GoString)
    (L d : GoString) (hL : L ∈ lines) (hblank : strings.TrimSpace L = []) :
    loadTLDs caseRanges [L] = [".".toList] ∧
    ".".toList ∈ loadTLDs caseRanges lines ∧
    ((clean caseRanges d).getLast? = some '.' →
      validTLD caseRanges d (loadTLDs caseRanges lines) = true) ∧
    (validTLD caseRanges d [".".toList] = true ↔ (clean caseRanges d).getLast? = some '.') := by
  have hc := clean_blank caseRanges L hblank
  have hmem : ".".toList ∈ loadTLDs caseRanges lines := by
    rw [loadTLDs_eq, List.mem_map]
    refine ⟨L, List.mem_filter.2 ⟨hL, ?_⟩, ?_⟩
    · rw [hc]; decide
    · rw [hc]; rfl
  refine ⟨?_, hmem, ?_, validTLD_dot_iff _ _⟩
  · rw [loadTLDs_eq, List.filter_cons, hc, if_pos (by decide), List.filter_nil, List.map_cons,
      List.map_nil, hc]
    rfl
  · intro hd
    rw [validTLD_eq_scan, scan_iff]
    refine ⟨".".toList, hmem, ?_⟩
    rw [← HasSuffix_iff]
    exact (HasSuffix_singleton _ _).2 hd

/-- C8, amended, at a TLD file of the line `COM` and a line of two spaces, and
the domain `example.com.`. -/
theorem C8_blank_line_suffix_witness :
    "  ".toList ∈ ["COM".toList, "  ".toList] ∧ strings.TrimSpace "  ".toList = [] ∧
    (clean (fun r => r) "example.com.".toList).getLast? = some '.' ∧
    validTLD (fun r => r) "example.com.".toList
      (loadTLDs (fun r => r) ["COM".toList, "  ".toList]) = true :=
  ⟨by decide, by decide, by decide!,
    (C8_blank_line_suffix (fun r => r) ["COM".toList, "  ".toList] "  ".toList
      "example.com.".toList (by decide) (by decide)).2.2.1 (by decide!)⟩

/-- C8 as stated fails: the TLD file of one blank line loads as the suffix `.`
alone, and the non-empty domain `example.com` does not end with it. -/
theorem C8_suffix_dot_does_not_match :
    strings.TrimSpace "".toList = [] ∧ "example.com".toList ≠ [] ∧
    ∀ caseRanges : Char → Char,
      loadTLDs caseRanges ["".toList] = [".".toList] ∧
      validTLD caseRanges "example.com".toList (loadTLDs caseRanges ["".toList]) = false := by
  refine ⟨by decide, by decide, fun cr => ?_⟩
  rw [loadTLDs_congr cr (fun r => r) _ (by decide),
    validTLD_congr cr (fun r => r) _ (by decide)]
  exact ⟨by decide!, by decide!⟩

end Hosts

/-! ## The first and the last character, and the labels -/

namespace Hosts

/-- C9. A string `d` whose first character or whose last character is one of
`-`, `_`, `.` is rejected. -/
theorem C9_edge_character (caseRanges : Char → Char) (d : GoString)
    (h : (∃ c, d.head? = some c ∧ (c = '-' ∨ c = '_' ∨ c = '.')) ∨
      (∃ c, d.getLast? = some c ∧ (c = '-' ∨ c = '_' ∨ c = '.'))) :
    validDomain caseRanges d = false := by
  cases hv : validDomain caseRanges d
  · rfl
  · obtain ⟨-, h2, h3, -⟩ := (validDomain_iff caseRanges d).1 hv
    rcases h with ⟨c, hc, he⟩ | ⟨c, hc, he⟩
    · have hedge : edgeChar c = true := by simpa [edgeChar] using he
      obtain ⟨hlow, hsp⟩ := ToLower_edgeChar caseRanges c hedge
      have : (clean caseRanges d).head? = some c := by
        unfold clean strings.ToLower
        rw [List.head?_map, head?_TrimSpace d c hc hsp, Option.map_some', hlow]
      rw [this, Option.any_some, hedge] at h2
      cases h2
    · have hedge : edgeChar c = true := by simpa [edgeChar] using he
      obtain ⟨hlow, hsp⟩ := ToLower_edgeChar caseRanges c hedge
      have : (clean caseRanges d).getLast? = some c := by
        unfold clean strings.ToLower
        rw [List.getLast?_map, getLast?_TrimSpace d c hc hsp, Option.map_some', hlow]
      rw [this, Option.any_some, hedge] at h3
      cases h3

/-- C9 at `-abc.com` (leading hyphen) and at `abc.com-` (trailing hyphen). -/
theorem C9_edge_character_witness :
    validDomain (fun r => r) "-abc.com".toList = false ∧
    validDomain (fun r => r) "abc.com-".toList = false :=
  ⟨C9_edge_character (fun r => r) "-abc.com".toList (Or.inl ⟨'-', by decide, Or.inl rfl⟩),
    C9_edge_character (fun r => r) "abc.com-".toList (Or.inr ⟨'-', by decide, Or.inl rfl⟩)⟩

/-- C10. When the split on `.` of the trimmed and lower-cased `d` has a label
of length 0 or of length greater than 63 (in bytes or in characters), `d` is
rejected.  `a.` + 64 times `x` + `.com` has the label of 64 `x` and is
rejected; `a.` + 63 times `x` + `.com` has the label of 63 `x` and is
accepted; `a.ok.com` is accepted. -/
theorem C10_label_length (caseRanges : Char → Char) :
    (∀ d : GoString,
      (∃ l ∈ strings.Split '.' (clean caseRanges d),
        len l = 0 ∨ 63 < len l ∨ l.length = 0 ∨ 63 < l.length) →
      validDomain caseRanges d = false) ∧
    (List.replicate 64 'x' ∈ strings.Split '.' (clean caseRanges label64Domain) ∧
      validDomain caseRanges label64Domain = false) ∧
    (List.replicate 63 'x' ∈ strings.Split '.' (clean caseRanges label63Domain) ∧
      validDomain caseRanges label63Domain = true) ∧
    validDomain caseRanges "a.ok.com".toList = true := by
  refine ⟨?_, ⟨?_, ?_⟩, ⟨?_, ?_⟩, ?_⟩
  · rintro d ⟨l, hl, hbad⟩
    cases hv : validDomain caseRanges d
    · rfl
    · have h7 := ((validDomain_iff caseRanges d).1 hv).2.2.2.2.2 l hl
      have h8 := length_le_len l
      have h9 := len_eq_zero_iff l
      rcases hbad with h | h | h | h
      · omega
      · omega
      · rw [List.length_eq_zero] at h
        have := h9.2 h
        omega
      · omega
  · rw [clean_congr caseRanges (fun r => r) label64Domain (by decide!)]
    decide!
  · rw [validDomain_congr caseRanges (fun r => r) label64Domain (by decide!)]
    decide!
  · rw [clean_congr caseRanges (fun r => r) label63Domain (by decide!)]
    decide!
  · rw [validDomain_congr caseRanges (fun r => r) label63Domain (by decide!)]
    decide!
  · rw [validDomain_congr caseRanges (fun r => r) "a.ok.com".toList (by decide!)]
    decide!

end Hosts

/-! ## The character rule and the dot rule -/

namespace Hosts

/-- C11. When the trimmed and lower-cased `d` has a character outside
`a-z 0-9 . - _`, `d` is rejected: so are `exa$mple.com` (the `$`) and
`exa mple.com` (the interior space).  Underscore is accepted: `ex_ample.com`
is valid. -/
theorem C11_illegal_character (caseRanges : Char → Char) :
    (∀ d : GoString,
      (∃ c ∈ clean caseRanges d,
        ¬ (('a' ≤ c ∧ c ≤ 'z') ∨ ('0' ≤ c ∧ c ≤ '9') ∨ c = '.' ∨ c = '-' ∨ c = '_')) →
      validDomain caseRanges d = false) ∧
    ('$' ∈ clean caseRanges "exa$mple.com".toList ∧
      validDomain caseRanges "exa$mple.com".toList = false) ∧
    (' ' ∈ clean caseRanges "exa mple.com".toList ∧
      validDomain caseRanges "exa mple.com".toList = false) ∧
    ('_' ∈ clean caseRanges "ex_ample.com".toList ∧
      validDomain caseRanges "ex_ample.com".toList = true) := by
  refine ⟨?_, ⟨?_, ?_⟩, ⟨?_, ?_⟩, ⟨?_, ?_⟩⟩
  · rintro d ⟨c, hc, hbad⟩
    cases hv : validDomain caseRanges d
    · rfl
    · have h5 := ((validDomain_iff caseRanges d).1 hv).2.2.2.2.1 c hc
      exact absurd ((mem_OkayChars c).1 h5) hbad
  · rw [clean_congr caseRanges (fun r => r) _ (by decide)]
    decide!
  · rw [validDomain_congr caseRanges (fun r => r) _ (by decide)]
    decide!
  · rw [clean_congr caseRanges (fun r => r) _ (by decide)]
    decide!
  · rw [validDomain_congr caseRanges (fun r => r) _ (by decide)]
    decide!
  · rw [clean_congr caseRanges (fun r => r) _ (by decide)]
    decide!
  · rw [validDomain_congr caseRanges (fun r => r) _ (by decide)]
    decide!

theorem toNat_ofNat_upper (k : Nat) (h1 : 'A'.toNat ≤ k) (h2 : k ≤ 'Z'.toNat) :
    (Char.ofNat (k + ('a'.toNat - 'A'.toNat))).toNat = k + 32 := by
  have e1 : 'A'.toNat = 65 := rfl
  have e2 : 'Z'.toNat = 90 := rfl
  rw [e1] at h1
  rw [e2] at h2
  interval_cases k <;> rfl

/-- The lower case of a rune is `.` for the rune `.` only, when the table
gives no `.`. -/
theorem ToLower_eq_dot (cr : Char → Char)
    (hT : ∀ r : Char, unicode.MaxASCII < r.toNat → cr r ≠ '.') (r : Char)
    (h : unicode.ToLower cr r = '.') : r = '.' := by
  unfold unicode.ToLower at h
  split at h
  · split at h
    · rename_i hup
      have := toNat_ofNat_upper r.toNat hup.1 hup.2
      rw [h] at this
      have e : '.'.toNat = 46 := rfl
      have e1 : 'A'.toNat = 65 := rfl
      rw [e] at this
      rw [e1] at hup
      omega
    · exact h
  · rename_i hn
    exact absurd h (hT r (Nat.lt_of_not_le hn))

theorem dot_not_mem_clean (cr : Char → Char)
    (hT : ∀ r : Char, unicode.MaxASCII < r.toNat → cr r ≠ '.') (s : GoString)
    (h : '.' ∉ s) : '.' ∉ clean cr s := by
  intro hm
  unfold clean strings.ToLower at hm
  obtain ⟨r, hr, he⟩ := List.mem_map.1 hm
  have := ToLower_eq_dot cr hT r he
  subst this
  exact h (mem_of_mem_TrimSpace hr)

/-- C12. A string `d` that contains no `.` is rejected; the table
`unicode.CaseRanges` is taken to give no `.` as the lower case of a rune above
ASCII. -/
theorem C12_no_dot (caseRanges : Char → Char)
    (hT : ∀ r : Char, unicode.MaxASCII < r.toNat → caseRanges r ≠ '.') (d : GoString)
    (h : '.' ∉ d) : validDomain caseRanges d = false := by
  cases hv : validDomain caseRanges d
  · rfl
  · have h4 := ((validDomain_iff caseRanges d).1 hv).2.2.2.1
    exact absurd h4 (dot_not_mem_clean caseRanges hT d h)

theorem id_table_never (c : Char) (hc : c.toNat ≤ unicode.MaxASCII) :
    ∀ r : Char, unicode.MaxASCII < r.toNat → (fun r : Char => r) r ≠ c := by
  intro r hr he
  have : r = c := he
  subst this
  omega

/-- C12 at `nodothere`. -/
theorem C12_no_dot_witness :
    '.' ∉ "nodothere".toList ∧ validDomain (fun r => r) "nodothere".toList = false :=
  ⟨by decide, C12_no_dot (fun r => r) (id_table_never '.' (by decide)) "nodothere".toList
    (by decide)⟩

end Hosts

/-! ## The order of the TLD set, and blank lines of the domains file -/

namespace Hosts

/-- C13. The order of the TLD set has no effect: on a permutation of the
list `validTLD` gives the same result. -/
theorem C13_order_irrelevant (caseRanges : Char → Char) (d : GoString)
    (t1 t2 : List GoString) (h : t2.Perm t1) :
    validTLD caseRanges d t1 = validTLD caseRanges d t2 := by
  rw [Bool.eq_iff_iff, validTLD_eq_scan, validTLD_eq_scan, scan_iff, scan_iff]
  exact ⟨fun ⟨t, ht, hs⟩ => ⟨t, h.mem_iff.2 ht, hs⟩, fun ⟨t, ht, hs⟩ => ⟨t, h.mem_iff.1 ht, hs⟩⟩

/-- C13 at the lists `.com`, `.net` and `.net`, `.com` with `example.net`,
which both accept. -/
theorem C13_order_irrelevant_witness :
    [".net".toList, ".com".toList].Perm [".com".toList, ".net".toList] ∧
    validTLD (fun r => r) "example.net".toList [".com".toList, ".net".toList] =
      validTLD (fun r => r) "example.net".toList [".net".toList, ".com".toList] ∧
    validTLD (fun r => r) "example.net".toList [".net".toList, ".com".toList] = true :=
  ⟨List.Perm.swap _ _ _,
    C13_order_irrelevant (fun r => r) "example.net".toList [".com".toList, ".net".toList]
      [".net".toList, ".com".toList] (List.Perm.swap _ _ _),
    by decide!⟩

theorem validDomain_nil (cr : Char → Char) : validDomain cr [] = false := rfl

theorem getElem?_loadDomains (cr : Char → Char) (lines : List GoString) (i : Nat)
    (L : GoString) (h : lines[i]? = some L) :
    (loadDomains cr lines)[i]? = some (clean cr L) := by
  rw [loadDomains_eq, List.getElem?_map, h]
  rfl

/-- C14. For a blank or white-space-only line `L` of the domains file, at
index `i`: the loaded candidate domain is the empty string, `validDomain` of
it is `false`, its first report line is `Valid TLD? <b>, ` with `b` the result
of `validTLD` on the empty string, and its second report line is
`Valid Domain? false, `, whatever the TLD file is. -/
theorem C14_blank_domain_line (caseRanges : Char → Char)
    (tldLines domainLines : List GoString) (i : Nat) (L : GoString)
    (hi : domainLines[i]? = some L) (hblank : strings.TrimSpace L = []) :
    (loadDomains caseRanges domainLines)[i]? = some [] ∧
    validDomain caseRanges [] = false ∧
    (main caseRanges false tldLines domainLines)[2 * i]? = some ("Valid TLD? ".toList
      ++ fmtBool (validTLD caseRanges [] (loadTLDs caseRanges tldLines)) ++ ", \n".toList) ∧
    (main caseRanges false tldLines domainLines)[2 * i + 1]? =
      some "Valid Domain? false, \n".toList := by
  have hl : (loadDomains caseRanges domainLines)[i]? = some [] := by
    rw [getElem?_loadDomains caseRanges domainLines i L hi, clean_blank caseRanges L hblank]
  have hr := report_getElem caseRanges (loadTLDs caseRanges tldLines)
    (loadDomains caseRanges domainLines) i [] hl
  refine ⟨hl, rfl, ?_, ?_⟩
  · show (main.report caseRanges (loadTLDs caseRanges tldLines)
      (loadDomains caseRanges domainLines))[2 * i]? = _
    rw [hr.1, List.append_nil, List.append_assoc _ ", ".toList "\n".toList]
    rfl
  · show (main.report caseRanges (loadTLDs caseRanges tldLines)
      (loadDomains caseRanges domainLines))[2 * i + 1]? = _
    rw [hr.2, validDomain_nil]
    rfl

/-- C14 at the domains file `example.com`, then a line of a tab and a space,
with the TLD file `COM`. -/
theorem C14_blank_domain_line_witness :
    (loadDomains (fun r => r) ["example.com".toList, "\t ".toList])[1]? = some [] ∧
    validDomain (fun r => r) [] = false ∧
    (main (fun r => r) false ["COM".toList] ["example.com".toList, "\t ".toList])[2 * 1]? =
      some ("Valid TLD? ".toList
        ++ fmtBool (validTLD (fun r => r) [] (loadTLDs (fun r => r) ["COM".toList]))
        ++ ", \n".toList) ∧
    (main (fun r => r) false ["COM".toList] ["example.com".toList, "\t ".toList])[2 * 1 + 1]? =
      some "Valid Domain? false, \n".toList :=
  C14_blank_domain_line (fun r => r) ["COM".toList] ["example.com".toList, "\t ".toList] 1
    "\t ".toList (by decide) (by decide)

end Hosts

/-! ## Suffixes that start with a dot -/

namespace Hosts

theorem mem_loadTLDs (cr : Char → Char) (lines : List GoString) (t : GoString) :
    t ∈ loadTLDs cr lines ↔
      ∃ L ∈ lines, (clean cr L).head? ≠ some '#' ∧ t = '.' :: clean cr L := by
  rw [loadTLDs_eq, List.mem_map]
  constructor
  · rintro ⟨L, hL, rfl⟩
    obtain ⟨h1, h2⟩ := List.mem_filter.1 hL
    exact ⟨L, h1, by simpa using h2, rfl⟩
  · rintro ⟨L, h1, h2, rfl⟩
    exact ⟨L, List.mem_filter.2 ⟨h1, by simpa using h2⟩, rfl⟩

/-- C18. A domain `d` that `validDomain` accepts does not match the suffix
`.` alone; so when it also has a valid TLD against the loaded set of a TLD
file, it ends with the entry of a line of that file that is no comment and
not blank. -/
theorem C18_valid_domain_not_degenerate (caseRanges : Char → Char) (d : GoString)
    (h : validDomain caseRanges d = true) :
    validTLD caseRanges d [".".toList] = false ∧
    ∀ lines : List GoString, validTLD caseRanges d (loadTLDs caseRanges lines) = true →
      ∃ L ∈ lines, strings.TrimSpace L ≠ [] ∧ (clean caseRanges L).head? ≠ some '#' ∧
        (".".toList ++ clean caseRanges L) ∈ loadTLDs caseRanges lines ∧
        (".".toList ++ clean caseRanges L) <:+ clean caseRanges d := by
  have h3 := ((validDomain_iff caseRanges d).1 h).2.2.1
  have hlast : (clean caseRanges d).getLast? ≠ some '.' := by
    intro he
    rw [he] at h3
    revert h3
    decide
  have hdot : validTLD caseRanges d [".".toList] = false := by
    cases hv : validTLD caseRanges d [".".toList]
    · rfl
    · exact absurd ((validTLD_dot_iff caseRanges d).1 hv) hlast
  refine ⟨hdot, fun lines hv => ?_⟩
  rw [validTLD_eq_scan, scan_iff] at hv
  obtain ⟨t, ht, hs⟩ := hv
  obtain ⟨L, hL, hcom, rfl⟩ := (mem_loadTLDs caseRanges lines t).1 ht
  refine ⟨L, hL, ?_, hcom, ht, hs⟩
  intro hb
  rw [clean_blank caseRanges L hb] at hs
  exact hlast ((HasSuffix_singleton _ _).1 ((HasSuffix_iff _ _).2 hs))

/-- C18 at `example.com` with the TLD file of a blank line and `COM`. -/
theorem C18_valid_domain_not_degenerate_witness :
    validDomain (fun r => r) "example.com".toList = true ∧
    validTLD (fun r => r) "example.com".toList [".".toList] = false ∧
    validTLD (fun r => r) "example.com".toList
      (loadTLDs (fun r => r) ["".toList, "COM".toList]) = true :=
  ⟨by decide!, (C18_valid_domain_not_degenerate (fun r => r) "example.com".toList
    (by decide!)).1, by decide!⟩

/-- C19. A domain `d` whose trimmed and lower-cased form contains no `.` has
no valid TLD against the loaded set of any TLD file. -/
theorem C19_no_dot_no_TLD (caseRanges : Char → Char) (lines : List GoString)
    (d : GoString) (h : '.' ∉ clean caseRanges d) :
    validTLD caseRanges d (loadTLDs caseRanges lines) = false := by
  cases hv : validTLD caseRanges d (loadTLDs caseRanges lines)
  · rfl
  · rw [validTLD_eq_scan, scan_iff] at hv
    obtain ⟨t, ht, hs⟩ := hv
    obtain ⟨L, -, -, rfl⟩ := (mem_loadTLDs caseRanges lines t).1 ht
    exact absurd (hs.subset (List.mem_cons_self _ _)) h

/-- C19 at the empty candidate domain of a blank line and at `localhost`,
with the TLD file of `COM` and a blank line. -/
theorem C19_no_dot_no_TLD_witness :
    ('.' ∉ clean (fun r => r) "".toList ∧
      validTLD (fun r => r) "".toList (loadTLDs (fun r => r) ["COM".toList, "".toList]) =
        false) ∧
    ('.' ∉ clean (fun r => r) "localhost".toList ∧
      validTLD (fun r => r) "localhost".toList
        (loadTLDs (fun r => r) ["COM".toList, "".toList]) = false) :=
  ⟨⟨by decide, C19_no_dot_no_TLD (fun r => r) ["COM".toList, "".toList] "".toList (by decide)⟩,
    ⟨by decide!, C19_no_dot_no_TLD (fun r => r) ["COM".toList, "".toList] "localhost".toList
      (by decide!)⟩⟩

end Hosts

/-! ## Normalisation twice -/

namespace Hosts

theorem IsSpace_false_of_letter (c : Char) (h1 : 97 ≤ c.toNat) (h2 : c.toNat ≤ 122) :
    unicode.IsSpace c = false := by
  have e (x : Char) : (c = x) = (c.toNat = x.toNat) := propext (char_toNat_inj c x).symm
  have t1 : '\t'.toNat = 9 := rfl
  have t2 : '\n'.toNat = 10 := rfl
  have t3 : '\r'.toNat = 13 := rfl
  have t4 : ' '.toNat = 32 := rfl
  unfold unicode.IsSpace
  rw [if_pos (by unfold unicode.MaxLatin1; omega)]
  simp only [e, t1, t2, t3, t4, Bool.or_eq_false_iff, decide_eq_false_iff_not]
  omega

theorem ToLower_ToLower (cr : Char → Char)
    (hIdem : ∀ r : Char, unicode.MaxASCII < r.toNat → unicode.ToLower cr (cr r) = cr r)
    (r : Char) : unicode.ToLower cr (unicode.ToLower cr r) = unicode.ToLower cr r := by
  by_cases ha : r.toNat ≤ unicode.MaxASCII
  · by_cases hu : 'A'.toNat ≤ r.toNat ∧ r.toNat ≤ 'Z'.toNat
    · have e : unicode.ToLower cr r = Char.ofNat (r.toNat + ('a'.toNat - 'A'.toNat)) := by
        unfold unicode.ToLower; rw [if_pos ha, if_pos hu]
      have hn := toNat_ofNat_upper r.toNat hu.1 hu.2
      have e1 : 'A'.toNat = 65 := rfl
      have e2 : 'Z'.toNat = 90 := rfl
      rw [e1, e2] at hu
      rw [e]
      generalize Char.ofNat (r.toNat + ('a'.toNat - 'A'.toNat)) = c at hn
      unfold unicode.ToLower
      rw [if_pos (by unfold unicode.MaxASCII; omega), if_neg (by rw [e1, e2]; omega)]
    · have e : unicode.ToLower cr r = r := by
        unfold unicode.ToLower; rw [if_pos ha, if_neg hu]
      rw [e, e]
  · have e : unicode.ToLower cr r = cr r := by
      unfold unicode.ToLower; rw [if_neg ha]
    rw [e]
    exact hIdem r (Nat.lt_of_not_le ha)

theorem ToLower_not_space (cr : Char → Char)
    (hSpace : ∀ r : Char, unicode.MaxASCII < r.toNat → unicode.IsSpace r = false →
      unicode.IsSpace (cr r) = false)
    (r : Char) (h : unicode.IsSpace r = false) :
    unicode.IsSpace (unicode.ToLower cr r) = false := by
  by_cases ha : r.toNat ≤ unicode.MaxASCII
  · by_cases hu : 'A'.toNat ≤ r.toNat ∧ r.toNat ≤ 'Z'.toNat
    · have e : unicode.ToLower cr r = Char.ofNat (r.toNat + ('a'.toNat - 'A'.toNat)) := by
        unfold unicode.ToLower; rw [if_pos ha, if_pos hu]
      have hn := toNat_ofNat_upper r.toNat hu.1 hu.2
      have e1 : 'A'.toNat = 65 := rfl
      have e2 : 'Z'.toNat = 90 := rfl
      rw [e1, e2] at hu
      rw [e]
      exact IsSpace_false_of_letter _ (by omega) (by omega)
    · have e : unicode.ToLower cr r = r := by
        unfold unicode.ToLower; rw [if_pos ha, if_neg hu]
      rw [e]; exact h
  · have e : unicode.ToLower cr r = cr r := by
      unfold unicode.ToLower; rw [if_neg ha]
    rw [e]
    exact hSpace r (Nat.lt_of_not_le ha) h

/-- A string with neither a first nor a last character that is white space
is its own trimming. -/
theorem TrimSpace_eq_self (m : GoString)
    (hh : ∀ c, m.head? = some c → unicode.IsSpace c = false)
    (hl : ∀ c, m.getLast? = some c → unicode.IsSpace c = false) :
    strings.TrimSpace m = m := by
  cases m with
  | nil => rfl
  | cons a s =>
    rw [TrimSpace_eq_rdropWhile,
      List.dropWhile_cons_of_neg (by simp [hh a rfl])]
    rcases List.eq_nil_or_concat (a :: s) with he | ⟨p, x, he⟩
    · cases he
    · have hx : unicode.IsSpace x = false := hl x (by rw [he]; simp)
      rw [he, List.concat_eq_append, List.rdropWhile_concat_neg _ _ _ (by simp [hx])]

theorem head?_TrimSpace_not_space (s : GoString) (c : Char)
    (h : (strings.TrimSpace s).head? = some c) : unicode.IsSpace c = false := by
  rw [TrimSpace_eq_rdropWhile] at h
  obtain ⟨w, hw⟩ := List.head?_eq_some_iff.1 h
  obtain ⟨t, ht⟩ := List.rdropWhile_prefix unicode.IsSpace (s.dropWhile unicode.IsSpace)
  rw [hw] at ht
  have := List.head?_dropWhile_not unicode.IsSpace s
  rw [← ht] at this
  exact this

theorem getLast?_TrimSpace_not_space (s : GoString) (c : Char)
    (h : (strings.TrimSpace s).getLast? = some c) : unicode.IsSpace c = false := by
  rw [TrimSpace_eq_rdropWhile] at h
  have hne : (s.dropWhile unicode.IsSpace).rdropWhile unicode.IsSpace ≠ [] := by
    intro he; rw [he] at h; cases h
  have := List.rdropWhile_last_not unicode.IsSpace (s.dropWhile unicode.IsSpace) hne
  rw [List.getLast?_eq_getLast _ hne] at h
  cases h
  simpa using this

/-- The normalisation is idempotent, when the table gives lower cases that
are their own lower case and gives white space for white space only. -/
theorem clean_clean (cr : Char → Char)
    (hIdem : ∀ r : Char, unicode.MaxASCII < r.toNat → unicode.ToLower cr (cr r) = cr r)
    (hSpace : ∀ r : Char, unicode.MaxASCII < r.toNat → unicode.IsSpace r = false →
      unicode.IsSpace (cr r) = false)
    (d : GoString) : clean cr (clean cr d) = clean cr d := by
  have htrim : strings.TrimSpace (clean cr d) = clean cr d := by
    apply TrimSpace_eq_self
    · intro c hc
      unfold clean strings.ToLower at hc
      rw [List.head?_map] at hc
      cases hr : (strings.TrimSpace d).head? with
      | none => rw [hr] at hc; cases hc
      | some r =>
        rw [hr] at hc
        cases hc
        exact ToLower_not_space cr hSpace r (head?_TrimSpace_not_space d r hr)
    · intro c hc
      unfold clean strings.ToLower at hc
      rw [List.getLast?_map] at hc
      cases hr : (strings.TrimSpace d).getLast? with
      | none => rw [hr] at hc; cases hc
      | some r =>
        rw [hr] at hc
        cases hc
        exact ToLower_not_space cr hSpace r (getLast?_TrimSpace_not_space d r hr)
  show strings.ToLower cr (strings.TrimSpace (clean cr d)) = clean cr d
  rw [htrim]
  unfold clean strings.ToLower
  rw [List.map_map]
  apply List.map_congr_left
  intro r _
  exact ToLower_ToLower cr hIdem r

theorem id_table_idem :
    ∀ r : Char, unicode.MaxASCII < r.toNat →
      unicode.ToLower (fun r => r) ((fun r : Char => r) r) = (fun r : Char => r) r := by
  intro r hr
  show unicode.ToLower (fun r => r) r = r
  unfold unicode.ToLower
  rw [if_neg (Nat.not_le_of_lt hr)]

theorem id_table_space :
    ∀ r : Char, unicode.MaxASCII < r.toNat → unicode.IsSpace r = false →
      unicode.IsSpace ((fun r : Char => r) r) = false :=
  fun _ _ h => h

end Hosts

namespace Hosts

/-- C15. The normalisation `norm(d) = lowercase(trim(d))` is idempotent, both
validators give on `norm(d)` what they give on `d`, and a candidate domain `c`
that `loadDomains` produced is its own normalisation, so `validTLD c tlds`
holds exactly when an entry of `tlds` is a suffix of `c` itself.  The table
`unicode.CaseRanges` is taken to give, for a rune above ASCII, a lower case
that is its own lower case and that is no white space unless the rune is. -/
theorem C15_normalisation_idempotent (caseRanges : Char → Char)
    (hIdem : ∀ r : Char, unicode.MaxASCII < r.toNat →
      unicode.ToLower caseRanges (caseRanges r) = caseRanges r)
    (hSpace : ∀ r : Char, unicode.MaxASCII < r.toNat → unicode.IsSpace r = false →
      unicode.IsSpace (caseRanges r) = false)
    (d : GoString) (tlds : List GoString) :
    clean caseRanges (clean caseRanges d) = clean caseRanges d ∧
    validDomain caseRanges (clean caseRanges d) = validDomain caseRanges d ∧
    validTLD caseRanges (clean caseRanges d) tlds = validTLD caseRanges d tlds ∧
    ∀ lines : List GoString, ∀ c ∈ loadDomains caseRanges lines,
      clean caseRanges c = c ∧
      (validTLD caseRanges c tlds = true ↔ ∃ t ∈ tlds, t <:+ c) := by
  have hcc := clean_clean caseRanges hIdem hSpace
  refine ⟨hcc d, ?_, ?_, ?_⟩
  · rw [Bool.eq_iff_iff, validDomain_iff, validDomain_iff, hcc d]
  · rw [validTLD_eq_scan, validTLD_eq_scan, hcc d]
  · intro lines c hc
    rw [loadDomains_eq, List.mem_map] at hc
    obtain ⟨L, -, rfl⟩ := hc
    refine ⟨hcc L, ?_⟩
    rw [validTLD_eq_scan, scan_iff, hcc L]

/-- C15 at the line `  Example.COM ` and the TLD `.com`. -/
theorem C15_normalisation_idempotent_witness :
    clean (fun r => r) "  Example.COM ".toList = "example.com".toList ∧
    clean (fun r => r) (clean (fun r => r) "  Example.COM ".toList) =
      clean (fun r => r) "  Example.COM ".toList ∧
    validDomain (fun r => r) (clean (fun r => r) "  Example.COM ".toList) =
      validDomain (fun r => r) "  Example.COM ".toList ∧
    validTLD (fun r => r) (clean (fun r => r) "  Example.COM ".toList) [".com".toList] =
      validTLD (fun r => r) "  Example.COM ".toList [".com".toList] :=
  have h := C15_normalisation_idempotent (fun r => r) id_table_idem id_table_space
    "  Example.COM ".toList [".com".toList]
  ⟨by decide!, h.1, h.2.1, h.2.2.1⟩

/-- C16. Every entry of `loadTLDs lines` is equal to its own lower-casing,
begins with `.` and is not empty.  The table `unicode.CaseRanges` is taken to
give, for a rune above ASCII, a lower case that is its own lower case. -/
theorem C16_loaded_TLD_invariant (caseRanges : Char → Char)
    (hIdem : ∀ r : Char, unicode.MaxASCII < r.toNat →
      unicode.ToLower caseRanges (caseRanges r) = caseRanges r)
    (lines : List GoString) :
    ∀ e ∈ loadTLDs caseRanges lines,
      strings.ToLower caseRanges e = e ∧ e.head? = some '.' ∧ e ≠ [] := by
  intro e he
  obtain ⟨L, -, -, rfl⟩ := (mem_loadTLDs caseRanges lines e).1 he
  refine ⟨?_, rfl, List.cons_ne_nil _ _⟩
  unfold clean strings.ToLower
  rw [List.map_cons, List.map_map, (ToLower_edgeChar caseRanges '.' (by decide)).1]
  congr 1
  apply List.map_congr_left
  intro r _
  exact ToLower_ToLower caseRanges hIdem r

/-- C16 at the TLD file `# v1`, ` Com `, a blank line: the entries `.com`
and `.`. -/
theorem C16_loaded_TLD_invariant_witness :
    loadTLDs (fun r => r) ["# v1".toList, " Com ".toList, "".toList] =
      [".com".toList, ".".toList] ∧
    ∀ e ∈ loadTLDs (fun r => r) ["# v1".toList, " Com ".toList, "".toList],
      strings.ToLower (fun r => r) e = e ∧ e.head? = some '.' ∧ e ≠ [] :=
  ⟨by decide!, C16_loaded_TLD_invariant (fun r => r) id_table_idem
    ["# v1".toList, " Com ".toList, "".toList]⟩

end Hosts

/-! ## The rightmost label -/

namespace Hosts

theorem afterLast_append (p x : GoString) (hx : '.' ∉ x) :
    afterLast '.' (p ++ '.' :: x) = x := by
  unfold afterLast List.rtakeWhile
  have hr : (p ++ '.' :: x).reverse = x.reverse ++ '.' :: p.reverse := by simp
  rw [hr, List.takeWhile_append_of_pos, List.takeWhile_cons_of_neg (by simp)]
  · simp
  · intro a ha
    have : a ≠ '.' := fun h => hx (h ▸ List.mem_reverse.1 ha)
    simpa using this

theorem eq_append_afterLast (n : GoString) (h : '.' ∈ n) :
    ∃ p, n = p ++ '.' :: afterLast '.' n := by
  have hsplit := List.takeWhile_append_dropWhile (fun c : Char => c != '.') n.reverse
  have hne : n.reverse.dropWhile (fun c => c != '.') ≠ [] := by
    intro he
    have := List.dropWhile_eq_nil_iff.1 he '.' (List.mem_reverse.2 h)
    simp at this
  have hhead := List.head?_dropWhile_not (fun c : Char => c != '.') n.reverse
  cases hd : n.reverse.dropWhile (fun c => c != '.') with
  | nil => exact absurd hd hne
  | cons b rest =>
    rw [hd] at hhead hsplit
    have hb : b = '.' := by simpa using hhead
    subst hb
    refine ⟨rest.reverse, ?_⟩
    have hn : n = rest.reverse ++
        '.' :: (List.takeWhile (fun c => c != '.') n.reverse).reverse := by
      have := congrArg List.reverse hsplit
      rw [List.reverse_reverse, List.reverse_append, List.reverse_cons,
        List.append_assoc] at this
      exact this.symm
    exact hn

theorem suffix_dot_iff (n x : GoString) (hx : '.' ∉ x) :
    ('.' :: x) <:+ n ↔ '.' ∈ n ∧ afterLast '.' n = x := by
  constructor
  · rintro ⟨p, rfl⟩
    exact ⟨by simp, afterLast_append p x hx⟩
  · rintro ⟨hm, rfl⟩
    obtain ⟨p, hp⟩ := eq_append_afterLast n hm
    exact ⟨p, hp.symm⟩

/-- C17. Against the loaded set of a TLD file whose lines contain no `.`,
`validTLD d` is `true` exactly when the trimmed and lower-cased `d` contains a
`.` and its substring after the last `.` is `lowercase(trim(L))` for a line
`L` of the file that is no comment.  The table `unicode.CaseRanges` is taken
to give no `.` as the lower case of a rune above ASCII. -/
theorem C17_rightmost_label (caseRanges : Char → Char)
    (hT : ∀ r : Char, unicode.MaxASCII < r.toNat → caseRanges r ≠ '.')
    (lines : List GoString) (hlines : ∀ L ∈ lines, '.' ∉ L) (d : GoString) :
    validTLD caseRanges d (loadTLDs caseRanges lines) = true ↔
      '.' ∈ clean caseRanges d ∧
      ∃ L ∈ lines, (clean caseRanges L).head? ≠ some '#' ∧
        afterLast '.' (clean caseRanges d) = clean caseRanges L := by
  rw [validTLD_eq_scan, scan_iff]
  constructor
  · rintro ⟨t, ht, hs⟩
    obtain ⟨L, hL, hcom, rfl⟩ := (mem_loadTLDs caseRanges lines t).1 ht
    have := (suffix_dot_iff _ _ (dot_not_mem_clean caseRanges hT L (hlines L hL))).1 hs
    exact ⟨this.1, L, hL, hcom, this.2⟩
  · rintro ⟨hm, L, hL, hcom, he⟩
    refine ⟨'.' :: clean caseRanges L, (mem_loadTLDs caseRanges lines _).2 ⟨L, hL, hcom, rfl⟩, ?_⟩
    exact (suffix_dot_iff _ _ (dot_not_mem_clean caseRanges hT L (hlines L hL))).2 ⟨hm, he⟩

/-- C17 at the TLD file `# v1`, `COM`, `NET` and the domain `Example.Net`,
whose substring after the last dot is `net`. -/
theorem C17_rightmost_label_witness :
    (∀ L ∈ ["# v1".toList, "COM".toList, "NET".toList], '.' ∉ L) ∧
    afterLast '.' (clean (fun r => r) "Example.Net".toList) = "net".toList ∧
    validTLD (fun r => r) "Example.Net".toList
      (loadTLDs (fun r => r) ["# v1".toList, "COM".toList, "NET".toList]) = true ∧
    (validTLD (fun r => r) "Example.Net".toList
        (loadTLDs (fun r => r) ["# v1".toList, "COM".toList, "NET".toList]) = true ↔
      '.' ∈ clean (fun r => r) "Example.Net".toList ∧
      ∃ L ∈ ["# v1".toList, "COM".toList, "NET".toList],
        (clean (fun r => r) L).head? ≠ some '#' ∧
        afterLast '.' (clean (fun r => r) "Example.Net".toList) = clean (fun r => r) L) :=
  ⟨by decide, by decide!, by decide!,
    C17_rightmost_label (fun r => r) (id_table_never '.' (by decide))
      ["# v1".toList, "COM".toList, "NET".toList] (by decide) "Example.Net".toList⟩

end Hosts
